import Mathlib

/-!
# Verification of the discrete-time binomial pricing engine

A shallow embedding of `src/discrete_time/binomial_model.py`:
the flat triangular tree (`BinaryTree`), the binomial model constructor,
the forward price-process sweep, the backward-induction value process and
the per-node hedging portfolio.

Modelling conventions:
* Python floats are modelled as exact rationals (`ℚ`).
* Python list indexing (`l[i]`) is modelled with its real semantics:
  indices in `[0, len)` read directly, indices in `[-len, 0)` wrap from the
  end, anything else raises `IndexError`.  A Python `assert` failure is an
  `AssertionError`; using `None` where a number is required is a `TypeError`.
* `for` loops over `range(n)` / `range(s, -1, -1)` are folds over the
  corresponding lists of visited indices.
* The source expression `1 / 1 + self.R` is transcribed literally as
  `1 / 1 + R` (Python groups it as `(1/1) + R`, and so does Lean).
-/

/-- Python exceptions that the embedded code can raise. -/
inductive PyErr where
  | indexError
  | assertionError
  | typeError
  deriving DecidableEq, Repr

instance {ε α : Type} [DecidableEq ε] [DecidableEq α] :
    DecidableEq (Except ε α) := fun
  | Except.error e, Except.error f =>
    if h : e = f then isTrue (by rw [h])
    else isFalse (by intro hh; cases hh; exact h rfl)
  | Except.error _, Except.ok _ => isFalse (by intro h; cases h)
  | Except.ok _, Except.error _ => isFalse (by intro h; cases h)
  | Except.ok a, Except.ok b =>
    if h : a = b then isTrue (by rw [h])
    else isFalse (by intro hh; cases hh; exact h rfl)

/-- Resolve a Python list index against length `n`: indices `0 ≤ i < n`
are used directly, `-n ≤ i < 0` wrap from the end, anything else is
out of range. -/
def pyResolve (n : Nat) (i : Int) : Option Nat :=
  if 0 ≤ i ∧ i < (n : Int) then some i.toNat
  else if -(n : Int) ≤ i ∧ i < 0 then some ((n : Int) + i).toNat
  else none

/-- Python `l[i]` (read). -/
def pyListGet (l : List α) (i : Int) : Except PyErr α :=
  match pyResolve l.length i with
  | some j =>
    match l[j]? with
    | some a => Except.ok a
    | none => Except.error PyErr.indexError
  | none => Except.error PyErr.indexError

/-- Python `l[i] = v` (write). -/
def pyListSet (l : List α) (i : Int) (v : α) : Except PyErr (List α) :=
  match pyResolve l.length i with
  | some j => Except.ok (l.set j v)
  | none => Except.error PyErr.indexError

/-- Python `range(n)`: the indices `0, 1, …, n-1` (empty when `n ≤ 0`). -/
def intRange (n : Int) : List Int :=
  (List.range n.toNat).map Int.ofNat

/-- Python `range(s, -1, -1)`: the indices `s, s-1, …, 0`
(empty when `s < 0`). -/
def intRangeDown (s : Int) : List Int :=
  ((List.range (s + 1).toNat).map Int.ofNat).reverse

/-- `class BinaryTree`: a flat list of slots, each `none` until written.
`α` is the slot payload type (`ℚ` for price and value trees). -/
structure BinaryTree (α : Type) where
  data : List (Option α)
  deriving DecidableEq, Repr

/-- `BinaryTree.__init__`: `self.data = [None] * int((T+1)*(T+2)/2)`.
No check on `T` is performed; `(T+1)*(T+2)/2 ≥ 0` for every integer `T`. -/
def BinaryTree.create (α : Type) (T : Int) : BinaryTree α :=
  ⟨List.replicate ((T + 1) * (T + 2) / 2).toNat none⟩

/-- `BinaryTree._bt_index`: `int(t*(t+1)/2 + k)`. -/
def bt_index (t k : Int) : Int :=
  t * (t + 1) / 2 + k

/-- `BinaryTree.set_data`: write slot `_bt_index t k`. -/
def BinaryTree.set_data (bt : BinaryTree α) (v : Option α) (t k : Int) :
    Except PyErr (BinaryTree α) :=
  (pyListSet bt.data (bt_index t k) v).map BinaryTree.mk

/-- `BinaryTree.get_data`: read slot `_bt_index t k` (the stored value,
which is `none` for a slot never written). -/
def BinaryTree.get_data (bt : BinaryTree α) (t k : Int) :
    Except PyErr (Option α) :=
  pyListGet bt.data (bt_index t k)

/-- Using `None` where Python expects a number raises `TypeError`. -/
def expectVal (x : Except PyErr (Option ℚ)) : Except PyErr ℚ :=
  match x with
  | Except.ok (some v) => Except.ok v
  | Except.ok none => Except.error PyErr.typeError
  | Except.error e => Except.error e

/-- `class BinomialModel`: parameters fixed by `__init__` together with the
price process cached at construction (`pu`, `pd` are validated then unused,
mirroring the commented-out assignment in the source). -/
structure BinomialModel where
  T : Int
  u : ℚ
  d : ℚ
  S : ℚ
  R : ℚ
  price_process : BinaryTree ℚ
  deriving DecidableEq, Repr

/-- `BinomialModel._compute_price_process`: forward sweep
`for t in range(T+1): for k in range(t+1): set(S * u**k * d**(t-k), t, k)`
starting from the freshly allocated tree. -/
def computePriceProcess (T : Int) (S u d : ℚ) : Except PyErr (BinaryTree ℚ) :=
  (intRange (T + 1)).foldlM
    (fun bt t =>
      (intRange (t + 1)).foldlM
        (fun bt k =>
          bt.set_data (some (S * u ^ k.toNat * d ^ (t - k).toNat)) t k)
        bt)
    (BinaryTree.create ℚ T)

/-- `BinomialModel.__init__`: assert `pu + pd == 1`, assert `u > d`, store
the parameters, then build and cache the price process. -/
def BinomialModel.init (T : Int) (u d S R pu pd : ℚ) :
    Except PyErr BinomialModel :=
  if pu + pd = 1 then
    if d < u then
      (computePriceProcess T S u d).map (fun tree => ⟨T, u, d, S, R, tree⟩)
    else Except.error PyErr.assertionError
  else Except.error PyErr.assertionError

/-- `BinomialModel.compute_martingale_measure`:
`qu = ((1+R) - d)/(u - d)`, `qd = (u - (1+R))/(u - d)`. -/
def BinomialModel.compute_martingale_measure (m : BinomialModel) : ℚ × ℚ :=
  (((1 + m.R) - m.d) / (m.u - m.d), (m.u - (1 + m.R)) / (m.u - m.d))

/-- `BinomialModel._compute_value_at_node`: at `t = T` return
`phi(price(t,k))`; otherwise return
`(1/1 + R) * (qu * value(t+1,k+1) + qd * value(t+1,k))` — transcribed
exactly as written in the source, where `1 / 1 + self.R` is `(1/1) + R`. -/
def BinomialModel.computeValueAtNode (m : BinomialModel) (t k : Int)
    (phi : ℚ → ℚ) (value_process : BinaryTree ℚ) : Except PyErr ℚ :=
  if t = m.T then do
    let price ← expectVal (m.price_process.get_data t k)
    pure (phi price)
  else do
    let qu := m.compute_martingale_measure.1
    let qd := m.compute_martingale_measure.2
    let vu ← expectVal (value_process.get_data (t + 1) (k + 1))
    let vd ← expectVal (value_process.get_data (t + 1) k)
    pure ((1 / 1 + m.R) * (qu * vu + qd * vd))

/-- `BinomialModel.compute_value_process`: backward sweep
`for t in range(T, -1, -1): for k in range(t, -1, -1): set(value, t, k)`
starting from a freshly allocated tree. -/
def BinomialModel.compute_value_process (m : BinomialModel) (phi : ℚ → ℚ) :
    Except PyErr (BinaryTree ℚ) :=
  (intRangeDown m.T).foldlM
    (fun vp t =>
      (intRangeDown t).foldlM
        (fun vp k => do
          let v ← m.computeValueAtNode t k phi vp
          vp.set_data (some v) t k)
        vp)
    (BinaryTree.create ℚ m.T)

/-- `BinomialModel.compute_hedging_portfolio_at_node`: recompute the value
process, read the two successor values, and return
`x = (1/1 + R) * (u*V_d - d*V_u)/(u - d)`,
`y = (1/S) * (V_u - V_d)/(u - d)` with `S = price(t,k)`. -/
def BinomialModel.compute_hedging_portfolio_at_node (m : BinomialModel)
    (t k : Int) (phi : ℚ → ℚ) : Except PyErr (ℚ × ℚ) := do
  let value_process ← m.compute_value_process phi
  let vU ← expectVal (value_process.get_data (t + 1) (k + 1))
  let vD ← expectVal (value_process.get_data (t + 1) k)
  let x := (1 / 1 + m.R) * (m.u * vD - m.d * vU) / (m.u - m.d)
  let s ← expectVal (m.price_process.get_data t k)
  let y := (1 / s) * (vU - vD) / (m.u - m.d)
  pure (x, y)

/-! ## Triangle-number infrastructure for the flat addressing -/

/-- The `n`-th triangular number, `0 + 1 + ⋯ + n`. -/
def tri : Nat → Nat
  | 0 => 0
  | n + 1 => tri n + (n + 1)

theorem two_mul_tri (n : Nat) : 2 * tri n = n * (n + 1) := by
  induction n with
  | zero => rfl
  | succ n ih => simp only [tri]; ring_nf; ring_nf at ih; omega

theorem tri_mono {m n : Nat} (h : m ≤ n) : tri m ≤ tri n := by
  induction n with
  | zero =>
    have hm : m = 0 := by omega
    subst hm
    exact le_refl _
  | succ n ih =>
    rcases Nat.eq_or_lt_of_le h with rfl | h'
    · exact le_refl _
    · have := ih (by omega); simp only [tri]; omega

/-- Number of slots allocated by `BinaryTree.create T`. -/
def treeLen (T : Int) : Nat := ((T + 1) * (T + 2) / 2).toNat

theorem BinaryTree.create_length (α : Type) (T : Int) :
    (BinaryTree.create α T).data.length = treeLen T := by
  simp [BinaryTree.create, treeLen]

theorem two_mul_tri_int (n : Nat) :
    (2 : Int) * (tri n : Int) = (n : Int) * ((n : Int) + 1) := by
  exact_mod_cast congrArg (Nat.cast : Nat → Int) (two_mul_tri n)

theorem treeLen_eq (T : Int) (hT : 0 ≤ T) :
    treeLen T = tri (T.toNat + 1) := by
  have hcast : ((T.toNat : Int)) = T := Int.toNat_of_nonneg hT
  have h2 : (2 : Int) * (tri (T.toNat + 1) : Int) = (T + 1) * (T + 2) := by
    have := two_mul_tri_int (T.toNat + 1)
    push_cast at this ⊢
    rw [hcast] at this
    linarith
  have : (T + 1) * (T + 2) / 2 = (tri (T.toNat + 1) : Int) := by
    rw [← h2, Int.mul_ediv_cancel_left _ (by norm_num)]
  simp [treeLen, this]

theorem bt_index_eq (t k : Int) (ht : 0 ≤ t) :
    bt_index t k = (tri t.toNat : Int) + k := by
  have hcast : ((t.toNat : Int)) = t := Int.toNat_of_nonneg ht
  have h2 : (2 : Int) * (tri t.toNat : Int) = t * (t + 1) := by
    have := two_mul_tri_int t.toNat
    rw [hcast] at this
    linarith
  have : t * (t + 1) / 2 = (tri t.toNat : Int) := by
    rw [← h2, Int.mul_ediv_cancel_left _ (by norm_num)]
  simp [bt_index, this]

/-- In-triangle nodes address slots inside the allocated storage. -/
theorem bt_index_lt_treeLen {T t k : Int} (hk : 0 ≤ k) (hkt : k ≤ t)
    (htT : t ≤ T) : bt_index t k < (treeLen T : Int) := by
  have ht : 0 ≤ t := le_trans hk hkt
  have hT : 0 ≤ T := le_trans ht htT
  rw [bt_index_eq t k ht, treeLen_eq T hT]
  have h1 : tri (t.toNat + 1) = tri t.toNat + (t.toNat + 1) := rfl
  have h2 : tri (t.toNat + 1) ≤ tri (T.toNat + 1) :=
    tri_mono (by omega)
  have hkt' : k ≤ (t.toNat : Int) := by
    rwa [Int.toNat_of_nonneg ht]
  omega

theorem bt_index_nonneg {t k : Int} (ht : 0 ≤ t) (hk : 0 ≤ k) :
    0 ≤ bt_index t k := by
  rw [bt_index_eq t k ht]
  positivity

/-- `bt_index` as a `Nat` on in-triangle nodes. -/
theorem bt_index_toNat (t k : Int) (ht : 0 ≤ t) (hk : 0 ≤ k) :
    (bt_index t k).toNat = tri t.toNat + k.toNat := by
  rw [bt_index_eq t k ht]
  omega

/-- Injectivity of the triangular addressing on valid nodes (`Nat` core). -/
theorem tri_add_inj {t k t' k' : Nat} (hk : k ≤ t) (hk' : k' ≤ t')
    (h : tri t + k = tri t' + k') : t = t' ∧ k = k' := by
  rcases lt_trichotomy t t' with hlt | heq | hgt
  · exfalso
    have h1 : tri t + k < tri (t + 1) := by simp [tri]; omega
    have h2 : tri (t + 1) ≤ tri t' := tri_mono (by omega)
    omega
  · subst heq; omega
  · exfalso
    have h1 : tri t' + k' < tri (t' + 1) := by simp [tri]; omega
    have h2 : tri (t' + 1) ≤ tri t := tri_mono (by omega)
    omega

/-- Surjectivity of the triangular addressing (`Nat` core). -/
theorem tri_add_surj (T : Nat) :
    ∀ i : Nat, i < tri (T + 1) → ∃ t k : Nat, t ≤ T ∧ k ≤ t ∧ tri t + k = i := by
  induction T with
  | zero =>
    intro i hi
    refine ⟨0, 0, le_refl _, le_refl _, ?_⟩
    simp [tri] at hi ⊢
    omega
  | succ T ih =>
    intro i hi
    by_cases hcase : i < tri (T + 1)
    · obtain ⟨t, k, h1, h2, h3⟩ := ih i hcase
      exact ⟨t, k, by omega, h2, h3⟩
    · refine ⟨T + 1, i - tri (T + 1), le_refl _, ?_, ?_⟩
      · have htri : tri (T + 1 + 1) = tri (T + 1) + (T + 2) := rfl
        omega
      · have htri : tri (T + 1 + 1) = tri (T + 1) + (T + 2) := rfl
        omega

/-! ## Characterizing Python list access and tree reads/writes -/

theorem pyResolve_pos {n : Nat} {i : Int} (h0 : 0 ≤ i) (h : i < (n : Int)) :
    pyResolve n i = some i.toNat := by
  simp [pyResolve, h0, h]

theorem pyResolve_none {n : Nat} {i : Int}
    (h : i < -(n : Int) ∨ (n : Int) ≤ i) : pyResolve n i = none := by
  rcases h with h | h
  · have h1 : ¬ (0 ≤ i ∧ i < (n : Int)) := by omega
    have h2 : ¬ (-(n : Int) ≤ i ∧ i < 0) := by omega
    simp [pyResolve, h1, h2]
  · have h1 : ¬ (0 ≤ i ∧ i < (n : Int)) := by omega
    have h2 : ¬ (-(n : Int) ≤ i ∧ i < 0) := by omega
    simp [pyResolve, h1, h2]

theorem pyResolve_neg {n : Nat} {i : Int} (h1 : -(n : Int) ≤ i) (h2 : i < 0) :
    pyResolve n i = some ((n : Int) + i).toNat := by
  have h3 : ¬ (0 ≤ i ∧ i < (n : Int)) := by omega
  simp [pyResolve, h3, h1, h2]

theorem pyListGet_ok {α : Type} {l : List α} {i : Int} (h0 : 0 ≤ i)
    (h : i.toNat < l.length) :
    pyListGet l i = Except.ok (l.get ⟨i.toNat, h⟩) := by
  have hi : i < (l.length : Int) := by omega
  simp [pyListGet, pyResolve_pos h0 hi, List.getElem?_eq_getElem h]

theorem pyListGet_err {α : Type} {l : List α} {i : Int}
    (h : i < -(l.length : Int) ∨ (l.length : Int) ≤ i) :
    pyListGet l i = Except.error PyErr.indexError := by
  simp [pyListGet, pyResolve_none h]

theorem pyListGet_neg {α : Type} {l : List α} {i : Int}
    (h1 : -(l.length : Int) ≤ i) (h2 : i < 0) :
    ∃ j : Nat, j < l.length ∧ ((j : Int) = (l.length : Int) + i) ∧
      ∀ h : j < l.length, pyListGet l i = Except.ok (l.get ⟨j, h⟩) := by
  refine ⟨((l.length : Int) + i).toNat, by omega, by omega, ?_⟩
  intro h
  simp [pyListGet, pyResolve_neg h1 h2, List.getElem?_eq_getElem h]

theorem pyListSet_ok {α : Type} {l : List α} {i : Int} (v : α) (h0 : 0 ≤ i)
    (h : i.toNat < l.length) :
    pyListSet l i v = Except.ok (l.set i.toNat v) := by
  have hi : i < (l.length : Int) := by omega
  simp [pyListSet, pyResolve_pos h0 hi]

/-- A valid read returns the stored slot (`none` when never written). -/
theorem BinaryTree.get_data_ok {α : Type} (bt : BinaryTree α) {T t k : Int}
    (hlen : bt.data.length = treeLen T) (hk : 0 ≤ k) (hkt : k ≤ t)
    (htT : t ≤ T) :
    bt.get_data t k = Except.ok (bt.data.getD (tri t.toNat + k.toNat) none) := by
  have ht : 0 ≤ t := le_trans hk hkt
  have hnn : 0 ≤ bt_index t k := bt_index_nonneg ht hk
  have hlt : bt_index t k < (treeLen T : Int) := bt_index_lt_treeLen hk hkt htT
  have hN : (bt_index t k).toNat < bt.data.length := by
    rw [hlen]; omega
  have hidx : (bt_index t k).toNat = tri t.toNat + k.toNat :=
    bt_index_toNat t k ht hk
  rw [BinaryTree.get_data, pyListGet_ok hnn hN]
  congr 1
  rw [← hidx, List.getD_eq_getElem?_getD, List.getElem?_eq_getElem hN]
  simp [List.get_eq_getElem]

/-- A valid write succeeds and writes the addressed flat slot. -/
theorem BinaryTree.set_data_ok {α : Type} (bt : BinaryTree α) (v : Option α)
    {T t k : Int} (hlen : bt.data.length = treeLen T) (hk : 0 ≤ k)
    (hkt : k ≤ t) (htT : t ≤ T) :
    bt.set_data v t k =
      Except.ok ⟨bt.data.set (tri t.toNat + k.toNat) v⟩ := by
  have ht : 0 ≤ t := le_trans hk hkt
  have hnn : 0 ≤ bt_index t k := bt_index_nonneg ht hk
  have hlt : bt_index t k < (treeLen T : Int) := bt_index_lt_treeLen hk hkt htT
  have hN : (bt_index t k).toNat < bt.data.length := by
    rw [hlen]; omega
  rw [BinaryTree.set_data, pyListSet_ok v hnn hN]
  simp [Except.map, bt_index_toNat t k ht hk]

theorem List.getD_set_self {α : Type} (l : List (Option α)) (j : Nat)
    (v : Option α) (h : j < l.length) : (l.set j v).getD j none = v := by
  rw [List.getD_eq_getElem?_getD, List.getElem?_set_self (by omega)]
  rfl

theorem List.getD_set_ne {α : Type} (l : List (Option α)) {i j : Nat}
    (v : Option α) (h : j ≠ i) : (l.set j v).getD i none = l.getD i none := by
  rw [List.getD_eq_getElem?_getD, List.getElem?_set_ne h,
    ← List.getD_eq_getElem?_getD]

theorem BinaryTree.create_getD {α : Type} (T : Int) (j : Nat) :
    (BinaryTree.create α T).data.getD j none = none := by
  rw [List.getD_eq_getElem?_getD]
  unfold BinaryTree.create
  by_cases h : j < ((T + 1) * (T + 2) / 2).toNat
  · simp [List.getElem?_replicate, h]
  · simp [List.getElem?_replicate, h]

/-! ## Loop ranges and one-step tree updates -/

theorem intRange_nonpos {n : Int} (h : n ≤ 0) : intRange n = [] := by
  have : n.toNat = 0 := by omega
  simp [intRange, this]

theorem intRange_succ (j : Nat) :
    intRange ((j : Int) + 1) = intRange (j : Int) ++ [(j : Int)] := by
  have h1 : ((j : Int) + 1).toNat = j + 1 := by omega
  have h2 : ((j : Int)).toNat = j := by omega
  simp [intRange, h1, h2, List.range_succ]

theorem intRangeDown_neg {s : Int} (h : s < 0) : intRangeDown s = [] := by
  have : (s + 1).toNat = 0 := by omega
  simp [intRangeDown, this]

theorem intRangeDown_succ (j : Nat) :
    intRangeDown (j : Int) = (j : Int) :: intRangeDown ((j : Int) - 1) := by
  have h1 : ((j : Int) + 1).toNat = j + 1 := by omega
  have h2 : ((j : Int) - 1 + 1).toNat = j := by omega
  simp [intRangeDown, h1, h2, List.range_succ]

theorem tri_add_lt_treeLen {T t k : Int} (hk : 0 ≤ k) (hkt : k ≤ t)
    (htT : t ≤ T) : tri t.toNat + k.toNat < treeLen T := by
  have h1 := bt_index_lt_treeLen hk hkt htT
  have h2 := bt_index_nonneg (le_trans hk hkt) hk
  have h3 := bt_index_toNat t k (le_trans hk hkt) hk
  omega

theorem BinaryTree.set_length {α : Type} (bt : BinaryTree α) (j : Nat)
    (v : Option α) :
    (BinaryTree.mk (bt.data.set j v) : BinaryTree α).data.length =
      bt.data.length := by
  simp

/-- Reading back the node just written. -/
theorem BinaryTree.get_set_same {α : Type} (bt : BinaryTree α) (v : Option α)
    {T t k : Int} (hlen : bt.data.length = treeLen T) (hk : 0 ≤ k)
    (hkt : k ≤ t) (htT : t ≤ T) :
    (BinaryTree.mk (bt.data.set (tri t.toNat + k.toNat) v) :
      BinaryTree α).get_data t k = Except.ok v := by
  have hlen' : (BinaryTree.mk (bt.data.set (tri t.toNat + k.toNat) v) :
      BinaryTree α).data.length = treeLen T := by
    simp [hlen]
  rw [BinaryTree.get_data_ok _ hlen' hk hkt htT]
  have hb : tri t.toNat + k.toNat < bt.data.length := by
    rw [hlen]; exact tri_add_lt_treeLen hk hkt htT
  rw [List.getD_set_self _ _ _ hb]

/-- Writing one node leaves every other valid node unchanged. -/
theorem BinaryTree.get_set_other {α : Type} (bt : BinaryTree α) (v : Option α)
    {T t k a b : Int} (hlen : bt.data.length = treeLen T) (hk : 0 ≤ k)
    (hkt : k ≤ t) (htT : t ≤ T) (hb : 0 ≤ b) (hba : b ≤ a) (haT : a ≤ T)
    (hne : a ≠ t ∨ b ≠ k) :
    (BinaryTree.mk (bt.data.set (tri t.toNat + k.toNat) v) :
      BinaryTree α).get_data a b = bt.get_data a b := by
  have hlen' : (BinaryTree.mk (bt.data.set (tri t.toNat + k.toNat) v) :
      BinaryTree α).data.length = treeLen T := by
    simp [hlen]
  rw [BinaryTree.get_data_ok _ hlen' hb hba haT,
    BinaryTree.get_data_ok _ hlen hb hba haT]
  have hner : tri t.toNat + k.toNat ≠ tri a.toNat + b.toNat := by
    intro hEq
    have hinj := @tri_add_inj t.toNat k.toNat a.toNat b.toNat
      (by omega) (by omega) hEq
    rcases hne with hne | hne
    · exact hne (by omega)
    · exact hne (by omega)
  rw [List.getD_set_ne _ _ hner]

/-! ## The forward price sweep fills every node -/

theorem Except.ok_bind {ε α β : Type} (a : α) (f : α → Except ε β) :
    (Except.ok a : Except ε α) >>= f = f a := rfl

theorem Except.error_bind {ε α β : Type} (e : ε) (f : α → Except ε β) :
    (Except.error e : Except ε α) >>= f = Except.error e := rfl

/-- Invariant of the inner loop `for k in range(j)` of the price sweep:
it succeeds, preserves the storage length, leaves every node outside
`{(t, k) | k < j}` unchanged, and fills `(t, k)` for `k < j`. -/
theorem priceInnerAux (T : Int) (S u d : ℚ) (t : Int) (htT : t ≤ T)
    (j : Nat) :
    ∀ bt : BinaryTree ℚ, (j : Int) ≤ t + 1 → bt.data.length = treeLen T →
    ∃ bt' : BinaryTree ℚ,
      (intRange (j : Int)).foldlM
        (fun bt k =>
          bt.set_data (some (S * u ^ k.toNat * d ^ (t - k).toNat)) t k) bt
        = Except.ok bt' ∧
      bt'.data.length = treeLen T ∧
      (∀ a b : Int, 0 ≤ b → b ≤ a → a ≤ T → (a ≠ t ∨ (j : Int) ≤ b) →
        bt'.get_data a b = bt.get_data a b) ∧
      (∀ k : Int, 0 ≤ k → k < (j : Int) →
        bt'.get_data t k =
          Except.ok (some (S * u ^ k.toNat * d ^ (t - k).toNat))) := by
  induction j with
  | zero =>
    intro bt _ hlen
    refine ⟨bt, ?_, hlen, fun a b _ _ _ _ => rfl, fun k hk hk' => ?_⟩
    · rw [intRange_nonpos (by omega), List.foldlM_nil]
      rfl
    · exact absurd hk' (by omega)
  | succ j ih =>
    intro bt hj hlen
    have hj' : (j : Int) ≤ t + 1 := by push_cast at hj ⊢; omega
    have hjt : (j : Int) ≤ t := by push_cast at hj ⊢; omega
    have hj0 : (0 : Int) ≤ (j : Int) := by positivity
    obtain ⟨bt1, hfold, hlen1, hpres1, hfill1⟩ := ih bt hj' hlen
    have hcast : ((j + 1 : Nat) : Int) = (j : Int) + 1 := by push_cast; ring
    have hset := BinaryTree.set_data_ok bt1
      (some (S * u ^ ((j : Int)).toNat * d ^ (t - (j : Int)).toNat))
      hlen1 hj0 hjt htT
    refine ⟨⟨bt1.data.set (tri t.toNat + ((j : Int)).toNat)
        (some (S * u ^ ((j : Int)).toNat * d ^ (t - (j : Int)).toNat))⟩,
      ?_, ?_, ?_, ?_⟩
    · rw [hcast, intRange_succ, List.foldlM_append, hfold, Except.ok_bind,
        List.foldlM_cons, hset, Except.ok_bind, List.foldlM_nil]
      rfl
    · simp [hlen1]
    · intro a b hb hba haT hcond
      have hne : a ≠ t ∨ b ≠ (j : Int) := by
        rcases hcond with h | h
        · exact Or.inl h
        · right; push_cast at h; omega
      rw [BinaryTree.get_set_other bt1 _ hlen1 hj0 hjt htT hb hba haT hne]
      refine hpres1 a b hb hba haT ?_
      rcases hcond with h | h
      · exact Or.inl h
      · right; push_cast at h ⊢; omega
    · intro k hk hklt
      by_cases hkj : k = (j : Int)
      · subst hkj
        exact BinaryTree.get_set_same bt1 _ hlen1 hk hjt htT
      · have hkj' : k < (j : Int) := by push_cast at hklt; omega
        rw [BinaryTree.get_set_other bt1 _ hlen1 hj0 hjt htT hk
          (by omega) htT (Or.inr hkj)]
        exact hfill1 k hk hkj'

/-- Invariant of the outer loop `for t in range(i)` of the price sweep:
layers `t < i` get filled, layers `≥ i` are untouched. -/
theorem priceOuterAux (T : Int) (S u d : ℚ) (i : Nat) :
    ∀ bt : BinaryTree ℚ, (i : Int) ≤ T + 1 → bt.data.length = treeLen T →
    ∃ bt' : BinaryTree ℚ,
      (intRange (i : Int)).foldlM
        (fun bt t =>
          (intRange (t + 1)).foldlM
            (fun bt k =>
              bt.set_data (some (S * u ^ k.toNat * d ^ (t - k).toNat)) t k)
            bt) bt
        = Except.ok bt' ∧
      bt'.data.length = treeLen T ∧
      (∀ a b : Int, 0 ≤ b → b ≤ a → a ≤ T → (i : Int) ≤ a →
        bt'.get_data a b = bt.get_data a b) ∧
      (∀ t k : Int, 0 ≤ k → k ≤ t → t < (i : Int) →
        bt'.get_data t k =
          Except.ok (some (S * u ^ k.toNat * d ^ (t - k).toNat))) := by
  induction i with
  | zero =>
    intro bt _ hlen
    refine ⟨bt, ?_, hlen, fun a b _ _ _ _ => rfl, fun t k _ _ ht' => ?_⟩
    · rw [intRange_nonpos (by omega), List.foldlM_nil]
      rfl
    · exact absurd ht' (by omega)
  | succ i ih =>
    intro bt hi hlen
    have hi' : (i : Int) ≤ T + 1 := by push_cast at hi ⊢; omega
    have hiT : (i : Int) ≤ T := by push_cast at hi ⊢; omega
    obtain ⟨bt1, hfold, hlen1, hpres1, hfill1⟩ := ih bt hi' hlen
    obtain ⟨bt2, hfold2, hlen2, hpres2, hfill2⟩ :=
      priceInnerAux T S u d (i : Int) hiT (i + 1) bt1 (by push_cast; omega)
        hlen1
    have hcast : ((i + 1 : Nat) : Int) = (i : Int) + 1 := by push_cast; ring
    refine ⟨bt2, ?_, hlen2, ?_, ?_⟩
    · rw [hcast, intRange_succ, List.foldlM_append, hfold, Except.ok_bind,
        List.foldlM_cons]
      rw [hcast] at hfold2
      rw [hfold2, Except.ok_bind, List.foldlM_nil]
      rfl
    · intro a b hb hba haT ha
      have ha' : a ≠ (i : Int) := by push_cast at ha; omega
      rw [hpres2 a b hb hba haT (Or.inl ha')]
      refine hpres1 a b hb hba haT (by push_cast at ha ⊢; omega)
    · intro t k hk hkt ht'
      by_cases hti : t = (i : Int)
      · subst hti
        exact hfill2 k hk (by push_cast; omega)
      · have ht'' : t < (i : Int) := by push_cast at ht'; omega
        rw [hpres2 t k hk hkt (by omega) (Or.inl hti)]
        exact hfill1 t k hk hkt ht''

/-- `_compute_price_process` succeeds for every `T` and stores
`S·u^k·d^(t-k)` at every valid node. -/
theorem computePriceProcess_ok (T : Int) (S u d : ℚ) :
    ∃ tree : BinaryTree ℚ, computePriceProcess T S u d = Except.ok tree ∧
      tree.data.length = treeLen T ∧
      ∀ t k : Int, 0 ≤ k → k ≤ t → t ≤ T →
        tree.get_data t k =
          Except.ok (some (S * u ^ k.toNat * d ^ (t - k).toNat)) := by
  by_cases hT : 0 ≤ T + 1
  · obtain ⟨tree, hfold, hlen, _, hfill⟩ :=
      priceOuterAux T S u d (T + 1).toNat (BinaryTree.create ℚ T)
        (by omega) (BinaryTree.create_length ℚ T)
    refine ⟨tree, ?_, hlen, ?_⟩
    · have harg : (((T + 1).toNat : Nat) : Int) = T + 1 := by omega
      rw [computePriceProcess, ← harg]
      exact hfold
    · intro t k hk hkt htT
      exact hfill t k hk hkt (by omega)
  · refine ⟨BinaryTree.create ℚ T, ?_, BinaryTree.create_length ℚ T, ?_⟩
    · rw [computePriceProcess, intRange_nonpos (by omega), List.foldlM_nil]
      rfl
    · intro t k hk hkt htT
      exact absurd htT (by omega)

/-! ## Constructor elimination and the backward-induction value function -/

/-- What a successful `__init__` guarantees: the parameters are stored
as passed, the asserts held, and the cached price process is fully
populated with `S·u^k·d^(t-k)`. -/
theorem BinomialModel.init_fields {T : Int} {u d S R pu pd : ℚ}
    {m : BinomialModel}
    (h : BinomialModel.init T u d S R pu pd = Except.ok m) :
    m.T = T ∧ m.u = u ∧ m.d = d ∧ m.S = S ∧ m.R = R ∧
    pu + pd = 1 ∧ d < u ∧
    m.price_process.data.length = treeLen T ∧
    ∀ t k : Int, 0 ≤ k → k ≤ t → t ≤ T →
      m.price_process.get_data t k =
        Except.ok (some (S * u ^ k.toNat * d ^ (t - k).toNat)) := by
  unfold BinomialModel.init at h
  by_cases h1 : pu + pd = 1
  · rw [if_pos h1] at h
    by_cases h2 : d < u
    · rw [if_pos h2] at h
      obtain ⟨tree, htree, hlen, hfill⟩ := computePriceProcess_ok T S u d
      rw [htree] at h
      have hm : m = ⟨T, u, d, S, R, tree⟩ := by
        cases h
        rfl
      subst hm
      exact ⟨rfl, rfl, rfl, rfl, rfl, h1, h2, hlen, hfill⟩
    · rw [if_neg h2] at h
      cases h
  · rw [if_neg h1] at h
    cases h

/-- `__init__` succeeds exactly when both asserts hold. -/
theorem BinomialModel.init_ok_iff (T : Int) (u d S R pu pd : ℚ) :
    (∃ m, BinomialModel.init T u d S R pu pd = Except.ok m) ↔
      (pu + pd = 1 ∧ d < u) := by
  constructor
  · rintro ⟨m, hm⟩
    unfold BinomialModel.init at hm
    by_cases h1 : pu + pd = 1
    · by_cases h2 : d < u
      · exact ⟨h1, h2⟩
      · rw [if_pos h1, if_neg h2] at hm
        cases hm
    · rw [if_neg h1] at hm
      cases hm
  · rintro ⟨h1, h2⟩
    obtain ⟨tree, htree, -, -⟩ := computePriceProcess_ok T S u d
    refine ⟨⟨T, u, d, S, R, tree⟩, ?_⟩
    rw [BinomialModel.init, if_pos h1, if_pos h2, htree]
    rfl

/-- The mathematical backward recursion actually implemented by
`_compute_value_at_node`, indexed by the number `n = T - t` of periods
remaining (note the factor `1/1 + R`, i.e. `1 + R`, taken verbatim from
the code). -/
def valueFun (m : BinomialModel) (phi : ℚ → ℚ) : Nat → Int → ℚ
  | 0, k => phi (m.S * m.u ^ k.toNat * m.d ^ (m.T - k).toNat)
  | n + 1, k =>
    (1 / 1 + m.R) *
      (m.compute_martingale_measure.1 * valueFun m phi n (k + 1) +
        m.compute_martingale_measure.2 * valueFun m phi n k)

/-- `_compute_value_at_node` returns `valueFun` at the node, provided the
successor layer of the value tree (for interior nodes) resp. the price
process (for terminal nodes) holds the expected values. -/
theorem computeValueAtNode_ok (m : BinomialModel) (phi : ℚ → ℚ)
    (hprice : ∀ t k : Int, 0 ≤ k → k ≤ t → t ≤ m.T →
      m.price_process.get_data t k =
        Except.ok (some (m.S * m.u ^ k.toNat * m.d ^ (t - k).toNat)))
    (t k : Int) (hk : 0 ≤ k) (hkt : k ≤ t) (htT : t ≤ m.T)
    (vp : BinaryTree ℚ)
    (hnext : t < m.T → ∀ b : Int, 0 ≤ b → b ≤ t + 1 →
      vp.get_data (t + 1) b =
        Except.ok (some (valueFun m phi (m.T - (t + 1)).toNat b))) :
    m.computeValueAtNode t k phi vp =
      Except.ok (valueFun m phi (m.T - t).toNat k) := by
  unfold BinomialModel.computeValueAtNode
  by_cases ht : t = m.T
  · rw [if_pos ht]
    rw [hprice t k hk hkt htT]
    have h0 : (m.T - t).toNat = 0 := by omega
    rw [h0]
    subst ht
    simp [expectVal, valueFun, Except.ok_bind]
  · rw [if_neg ht]
    have ht' : t < m.T := lt_of_le_of_ne htT ht
    rw [hnext ht' (k + 1) (by omega) (by omega),
      hnext ht' k (by omega) (by omega)]
    have hq : (m.T - t).toNat = (m.T - (t + 1)).toNat + 1 := by omega
    rw [hq]
    simp [expectVal, valueFun, Except.ok_bind]

/-! ## The backward value sweep fills every node with `valueFun` -/

/-- Invariant of the inner loop `for k in range(t, -1, -1)` (fuel `n`
stands for the remaining indices `n-1, …, 0`): the loop succeeds,
fills `(t, k)` for `k < n` and leaves every other node unchanged. -/
theorem valueInnerAux (m : BinomialModel) (phi : ℚ → ℚ)
    (hprice : ∀ t k : Int, 0 ≤ k → k ≤ t → t ≤ m.T →
      m.price_process.get_data t k =
        Except.ok (some (m.S * m.u ^ k.toNat * m.d ^ (t - k).toNat)))
    (t : Int) (h0t : 0 ≤ t) (htT : t ≤ m.T) (n : Nat) :
    ∀ vp : BinaryTree ℚ, (n : Int) ≤ t + 1 → vp.data.length = treeLen m.T →
    (t < m.T → ∀ b : Int, 0 ≤ b → b ≤ t + 1 →
      vp.get_data (t + 1) b =
        Except.ok (some (valueFun m phi (m.T - (t + 1)).toNat b))) →
    ∃ vp' : BinaryTree ℚ,
      (intRangeDown ((n : Int) - 1)).foldlM
        (fun vp k => do
          let v ← m.computeValueAtNode t k phi vp
          vp.set_data (some v) t k) vp = Except.ok vp' ∧
      vp'.data.length = treeLen m.T ∧
      (∀ a b : Int, 0 ≤ b → b ≤ a → a ≤ m.T → (a ≠ t ∨ (n : Int) ≤ b) →
        vp'.get_data a b = vp.get_data a b) ∧
      (∀ k : Int, 0 ≤ k → k < (n : Int) →
        vp'.get_data t k =
          Except.ok (some (valueFun m phi (m.T - t).toNat k))) := by
  induction n with
  | zero =>
    intro vp _ hlen _
    refine ⟨vp, ?_, hlen, fun a b _ _ _ _ => rfl, fun k hk hk' => ?_⟩
    · rw [intRangeDown_neg (by omega), List.foldlM_nil]
      rfl
    · exact absurd hk' (by omega)
  | succ n ih =>
    intro vp hn hlen hnext
    have hn0 : (0 : Int) ≤ (n : Int) := by positivity
    have hnt : (n : Int) ≤ t := by push_cast at hn ⊢; omega
    have hcast : ((n + 1 : Nat) : Int) - 1 = (n : Int) := by push_cast; ring
    have hval := computeValueAtNode_ok m phi hprice t (n : Int) hn0 hnt htT
      vp hnext
    have hset := BinaryTree.set_data_ok vp
      (some (valueFun m phi (m.T - t).toNat (n : Int))) hlen hn0 hnt htT
    set vp1 : BinaryTree ℚ :=
      ⟨vp.data.set (tri t.toNat + ((n : Int)).toNat)
        (some (valueFun m phi (m.T - t).toNat (n : Int)))⟩ with hvp1
    have hlen1 : vp1.data.length = treeLen m.T := by
      rw [hvp1]; simp [hlen]
    have hnext1 : t < m.T → ∀ b : Int, 0 ≤ b → b ≤ t + 1 →
        vp1.get_data (t + 1) b =
          Except.ok (some (valueFun m phi (m.T - (t + 1)).toNat b)) := by
      intro ht' b hb hbt
      rw [hvp1, BinaryTree.get_set_other vp _ hlen hn0 hnt htT hb hbt
        (by omega) (Or.inl (by omega))]
      exact hnext ht' b hb hbt
    obtain ⟨vp', hfold, hlen', hpres, hfill⟩ :=
      ih vp1 (by push_cast at hn ⊢; omega) hlen1 hnext1
    refine ⟨vp', ?_, hlen', ?_, ?_⟩
    · rw [hcast, intRangeDown_succ, List.foldlM_cons]
      have hbody : (do
          let v ← m.computeValueAtNode t (n : Int) phi vp
          vp.set_data (some v) t (n : Int)) = Except.ok vp1 := by
        rw [hval, Except.ok_bind, hset, hvp1]
      rw [hbody, Except.ok_bind]
      exact hfold
    · intro a b hb hba haT hcond
      have hstep : vp'.get_data a b = vp1.get_data a b := by
        refine hpres a b hb hba haT ?_
        rcases hcond with h | h
        · exact Or.inl h
        · right; push_cast at h ⊢; omega
      rw [hstep, hvp1, BinaryTree.get_set_other vp _ hlen hn0 hnt htT hb
        hba haT ?_]
      rcases hcond with h | h
      · exact Or.inl h
      · right; push_cast at h; omega
    · intro k hk hklt
      by_cases hkn : k = (n : Int)
      · rw [hkn]
        have hstep : vp'.get_data t (n : Int) = vp1.get_data t (n : Int) :=
          hpres t (n : Int) hn0 hnt htT (Or.inr le_rfl)
        rw [hstep, hvp1]
        exact BinaryTree.get_set_same vp _ hlen hn0 hnt htT
      · exact hfill k hk (by push_cast at hklt ⊢; omega)

/-- Invariant of the outer loop `for t in range(T, -1, -1)` (fuel `n`
stands for the remaining layers `n-1, …, 0`): once the layers `≥ n` hold
`valueFun`, the loop succeeds and the final tree holds `valueFun`
everywhere. -/
theorem valueOuterAux (m : BinomialModel) (phi : ℚ → ℚ)
    (hprice : ∀ t k : Int, 0 ≤ k → k ≤ t → t ≤ m.T →
      m.price_process.get_data t k =
        Except.ok (some (m.S * m.u ^ k.toNat * m.d ^ (t - k).toNat)))
    (n : Nat) :
    ∀ vp : BinaryTree ℚ, (n : Int) - 1 ≤ m.T →
    vp.data.length = treeLen m.T →
    (∀ a b : Int, (n : Int) ≤ a → a ≤ m.T → 0 ≤ b → b ≤ a →
      vp.get_data a b =
        Except.ok (some (valueFun m phi (m.T - a).toNat b))) →
    ∃ vp' : BinaryTree ℚ,
      (intRangeDown ((n : Int) - 1)).foldlM
        (fun vp t =>
          (intRangeDown t).foldlM
            (fun vp k => do
              let v ← m.computeValueAtNode t k phi vp
              vp.set_data (some v) t k) vp) vp = Except.ok vp' ∧
      vp'.data.length = treeLen m.T ∧
      (∀ a b : Int, 0 ≤ a → a ≤ m.T → 0 ≤ b → b ≤ a →
        vp'.get_data a b =
          Except.ok (some (valueFun m phi (m.T - a).toNat b))) := by
  induction n with
  | zero =>
    intro vp _ hlen hfilled
    refine ⟨vp, ?_, hlen, fun a b ha haT hb hba => ?_⟩
    · rw [intRangeDown_neg (by omega), List.foldlM_nil]
      rfl
    · exact hfilled a b (by push_cast; omega) haT hb hba
  | succ n ih =>
    intro vp hn hlen hfilled
    have hcast : ((n + 1 : Nat) : Int) - 1 = (n : Int) := by push_cast; ring
    have hnT : (n : Int) ≤ m.T := by push_cast at hn ⊢; omega
    have hn0 : (0 : Int) ≤ (n : Int) := by positivity
    have hnext : (n : Int) < m.T → ∀ b : Int, 0 ≤ b → b ≤ (n : Int) + 1 →
        vp.get_data ((n : Int) + 1) b =
          Except.ok (some (valueFun m phi (m.T - ((n : Int) + 1)).toNat b)) := by
      intro ht' b hb hbt
      exact hfilled ((n : Int) + 1) b (by push_cast; omega) (by omega) hb hbt
    obtain ⟨vp1, hfold1, hlen1, hpres1, hfill1⟩ :=
      valueInnerAux m phi hprice (n : Int) hn0 hnT (n + 1) vp
        (by push_cast; omega) hlen hnext
    have hfilled1 : ∀ a b : Int, (n : Int) ≤ a → a ≤ m.T → 0 ≤ b → b ≤ a →
        vp1.get_data a b =
          Except.ok (some (valueFun m phi (m.T - a).toNat b)) := by
      intro a b ha haT hb hba
      by_cases han : a = (n : Int)
      · subst han
        exact hfill1 b hb (by push_cast; omega)
      · rw [hpres1 a b hb hba haT (Or.inl han)]
        exact hfilled a b (by push_cast at ha ⊢; omega) haT hb hba
    obtain ⟨vp', hfold', hlen', hfill'⟩ := ih vp1 (by omega) hlen1 hfilled1
    refine ⟨vp', ?_, hlen', hfill'⟩
    rw [hcast, intRangeDown_succ, List.foldlM_cons]
    have hinner : ((n : Int) + 1 : Int) - 1 = (n : Int) := by ring
    rw [show ((n + 1 : Nat) : Int) - 1 = (n : Int) from hcast] at hfold1
    rw [hfold1, Except.ok_bind]
    exact hfold'

/-- `compute_value_process` succeeds on a well-built model and stores
`valueFun` at every valid node. -/
theorem compute_value_process_ok (m : BinomialModel) (phi : ℚ → ℚ)
    (hprice : ∀ t k : Int, 0 ≤ k → k ≤ t → t ≤ m.T →
      m.price_process.get_data t k =
        Except.ok (some (m.S * m.u ^ k.toNat * m.d ^ (t - k).toNat)))
    (hT : 0 ≤ m.T) :
    ∃ vp : BinaryTree ℚ, m.compute_value_process phi = Except.ok vp ∧
      vp.data.length = treeLen m.T ∧
      ∀ t k : Int, 0 ≤ k → k ≤ t → t ≤ m.T →
        vp.get_data t k =
          Except.ok (some (valueFun m phi (m.T - t).toNat k)) := by
  obtain ⟨vp, hfold, hlen, hfill⟩ :=
    valueOuterAux m phi hprice (m.T + 1).toNat (BinaryTree.create ℚ m.T)
      (by omega) (BinaryTree.create_length ℚ m.T)
      (fun a b ha haT _ _ => absurd (le_trans ha haT) (by omega))
  refine ⟨vp, ?_, hlen, fun t k hk hkt htT => hfill t k (le_trans hk hkt)
    htT hk hkt⟩
  rw [BinomialModel.compute_value_process]
  have harg : (((m.T + 1).toNat : Nat) : Int) - 1 = m.T := by omega
  rw [harg] at hfold
  exact hfold

/-! ## Claim theorems -/

/-- A European call payoff with strike 1, used as a concrete contract
function in witnesses. -/
def phiCall : ℚ → ℚ := fun s => if s ≤ 1 then 0 else s - 1

/-- The model built by `__init__(T=1, u=2, d=1/2, S=1, R=0)`, with its
cached price tree `[1, 1/2, 2]`, used as a concrete input in witnesses. -/
def mEx : BinomialModel :=
  ⟨1, 2, 1/2, 1, 0, ⟨[some 1, some (1/2), some 2]⟩⟩

/-- C3: for every model constructed with horizon `T`, initial price `S`
and factors `u > d`, and every `0 ≤ k ≤ t ≤ T`, the cached price process
satisfies `price(t,k) = S·u^k·d^(t-k)`. -/
theorem C3_price_process (T : Int) (u d S R pu pd : ℚ) (m : BinomialModel)
    (h : BinomialModel.init T u d S R pu pd = Except.ok m)
    (t k : Int) (hk : 0 ≤ k) (hkt : k ≤ t) (htT : t ≤ T) :
    m.price_process.get_data t k =
      Except.ok (some (S * u ^ k.toNat * d ^ (t - k).toNat)) :=
  (BinomialModel.init_fields h).2.2.2.2.2.2.2.2 t k hk hkt htT

/-- Witness for C3 at `T=1, u=2, d=1/2, S=1, R=0`, node `(1,1)`:
`price(1,1) = 1·2¹·(1/2)⁰ = 2`. -/
theorem C3_price_process_witness :
    BinomialModel.init 1 2 (1/2) 1 0 (1/2) (1/2) = Except.ok mEx ∧
    mEx.price_process.get_data 1 1 =
      Except.ok (some ((1 : ℚ) * 2 ^ ((1 : Int)).toNat *
        (1/2) ^ ((1 : Int) - 1).toNat)) :=
  ⟨by with_unfolding_all decide,
    C3_price_process 1 2 (1/2) 1 0 (1/2) (1/2) mEx
      (by with_unfolding_all decide) 1 1 (by norm_num) (by norm_num)
      (by norm_num)⟩

/-- C6: for every model and payoff `phi`, the tree returned by
`compute_value_process(phi)` satisfies `value(T,k) = phi(price(T,k))` for
every `0 ≤ k ≤ T`, where `price` is the cached price process. -/
theorem C6_terminal_layer (T : Int) (u d S R pu pd : ℚ) (m : BinomialModel)
    (h : BinomialModel.init T u d S R pu pd = Except.ok m) (phi : ℚ → ℚ)
    (k : Int) (hk : 0 ≤ k) (hkT : k ≤ T) (p : ℚ)
    (hp : m.price_process.get_data T k = Except.ok (some p)) :
    (m.compute_value_process phi).bind (fun vp => vp.get_data T k) =
      Except.ok (some (phi p)) := by
  obtain ⟨hT', hu, hd, hS, hR, -, -, hlen, hfill⟩ :=
    BinomialModel.init_fields h
  subst hT' hu hd hS hR
  have hT0 : 0 ≤ m.T := le_trans hk hkT
  obtain ⟨vp, hvp, hlenv, hval⟩ := compute_value_process_ok m phi hfill hT0
  have hterm := hval m.T k hk hkT le_rfl
  have h0 : (m.T - m.T).toNat = 0 := by omega
  rw [h0] at hterm
  have hpp := hfill m.T k hk hkT le_rfl
  have hpeq : p = m.S * m.u ^ k.toNat * m.d ^ (m.T - k).toNat := by
    have := hp.symm.trans hpp
    simp at this
    exact this
  rw [hvp]
  show vp.get_data m.T k = Except.ok (some (phi p))
  rw [hterm, hpeq]
  simp [valueFun]

/-- Witness for C6 at the example model, `phi` a call with strike 1,
terminal node `(1,1)` where the price is 2 and the payoff `phi 2 = 1`. -/
theorem C6_terminal_layer_witness :
    BinomialModel.init 1 2 (1/2) 1 0 (1/2) (1/2) = Except.ok mEx ∧
    mEx.price_process.get_data 1 1 = Except.ok (some 2) ∧
    (mEx.compute_value_process phiCall).bind (fun vp => vp.get_data 1 1) =
      Except.ok (some (phiCall 2)) :=
  ⟨by with_unfolding_all decide, by with_unfolding_all decide,
    C6_terminal_layer 1 2 (1/2) 1 0 (1/2) (1/2) mEx
      (by with_unfolding_all decide) phiCall 1 (by norm_num) (by norm_num)
      2 (by with_unfolding_all decide)⟩

/-- C7: for every model with `u > d`, `risk_neutral_measure()` returns
exactly `(((1+R)-d)/(u-d), (u-(1+R))/(u-d))`, the two components sum
to 1, and when `d < 1+R < u` both lie strictly in `(0,1)`. -/
theorem C7_martingale_measure (m : BinomialModel) (h : m.d < m.u) :
    m.compute_martingale_measure =
      (((1 + m.R) - m.d) / (m.u - m.d), (m.u - (1 + m.R)) / (m.u - m.d)) ∧
    m.compute_martingale_measure.1 + m.compute_martingale_measure.2 = 1 ∧
    (m.d < 1 + m.R → 1 + m.R < m.u →
      0 < m.compute_martingale_measure.1 ∧
      m.compute_martingale_measure.1 < 1 ∧
      0 < m.compute_martingale_measure.2 ∧
      m.compute_martingale_measure.2 < 1) := by
  have hud : m.u - m.d ≠ 0 := sub_ne_zero_of_ne (ne_of_gt h)
  have hud' : (0 : ℚ) < m.u - m.d := sub_pos.2 h
  refine ⟨rfl, ?_, ?_⟩
  · rw [BinomialModel.compute_martingale_measure]
    show ((1 + m.R) - m.d) / (m.u - m.d) + (m.u - (1 + m.R)) / (m.u - m.d) = 1
    rw [div_add_div_same]
    have hnum : (1 + m.R) - m.d + (m.u - (1 + m.R)) = m.u - m.d := by ring
    rw [hnum, div_self hud]
  · intro h1 h2
    rw [BinomialModel.compute_martingale_measure]
    refine ⟨div_pos (by linarith) hud', ?_, div_pos (by linarith) hud', ?_⟩
    · show ((1 + m.R) - m.d) / (m.u - m.d) < 1
      rw [div_lt_one hud']
      linarith
    · show (m.u - (1 + m.R)) / (m.u - m.d) < 1
      rw [div_lt_one hud']
      linarith

/-- Witness for C7 at the example model (`u = 2, d = 1/2, R = 0`, so
`d < 1+R < u` holds and `(qu, qd) = (1/3, 2/3)`). -/
theorem C7_martingale_measure_witness :
    mEx.d < mEx.u ∧
    (mEx.compute_martingale_measure =
      (((1 + mEx.R) - mEx.d) / (mEx.u - mEx.d),
        (mEx.u - (1 + mEx.R)) / (mEx.u - mEx.d)) ∧
    mEx.compute_martingale_measure.1 + mEx.compute_martingale_measure.2 = 1 ∧
    (mEx.d < 1 + mEx.R → 1 + mEx.R < mEx.u →
      0 < mEx.compute_martingale_measure.1 ∧
      mEx.compute_martingale_measure.1 < 1 ∧
      0 < mEx.compute_martingale_measure.2 ∧
      mEx.compute_martingale_measure.2 < 1)) :=
  ⟨by with_unfolding_all decide,
    C7_martingale_measure mEx (by with_unfolding_all decide)⟩

/-- C1 (code bug): the backward recursion multiplies by `1/1 + R = 1 + R`
instead of dividing by `1 + R`.  At `T=1, u=2, d=1/2, S=1, R=1` with the
identity payoff, the successor values are `2` and `1/2`, the martingale
measure is `(1, 0)`, so `value(0,0)` per the claim would be
`(1/(1+R))·(qu·2 + qd·(1/2)) = 1`, but the code stores `4`. -/
theorem C1_discount_bug :
    (BinomialModel.init 1 2 (1/2) 1 1 (1/2) (1/2)).bind
      (fun m => (m.compute_value_process (fun s => s)).bind
        (fun vp => vp.get_data 1 1)) = Except.ok (some 2) ∧
    (BinomialModel.init 1 2 (1/2) 1 1 (1/2) (1/2)).bind
      (fun m => (m.compute_value_process (fun s => s)).bind
        (fun vp => vp.get_data 1 0)) = Except.ok (some (1/2)) ∧
    (BinomialModel.init 1 2 (1/2) 1 1 (1/2) (1/2)).map
      (fun m => m.compute_martingale_measure) = Except.ok (1, 0) ∧
    (BinomialModel.init 1 2 (1/2) 1 1 (1/2) (1/2)).bind
      (fun m => (m.compute_value_process (fun s => s)).bind
        (fun vp => vp.get_data 0 0)) = Except.ok (some 4) ∧
    ((1 : ℚ) / (1 + 1)) * (1 * 2 + 0 * (1/2)) = 1 ∧
    (4 : ℚ) ≠ 1 := by
  refine ⟨?_, ?_, ?_, ?_, ?_, ?_⟩ <;> with_unfolding_all decide

/-- C2 (code bug): the bond position `x` is computed with the factor
`1/1 + R = 1 + R` instead of `1/(1+R)`, so the returned portfolio does
not replicate.  At `T=1, u=2, d=1/2, S=1, R=1/4` with a call of strike 1,
the code returns `(x, y) = (-5/12, 2/3)` at node `(0,0)`; the up-state
check `x·(1+R) + y·price(1,1)` gives `13/16`, not `value(1,1) = 1`. -/
theorem C2_replication_bug :
    (BinomialModel.init 1 2 (1/2) 1 (1/4) (1/2) (1/2)).bind
      (fun m => m.compute_hedging_portfolio_at_node 0 0 phiCall) =
        Except.ok (-5/12, 2/3) ∧
    (BinomialModel.init 1 2 (1/2) 1 (1/4) (1/2) (1/2)).bind
      (fun m => (m.compute_value_process phiCall).bind
        (fun vp => vp.get_data 1 1)) = Except.ok (some 1) ∧
    (BinomialModel.init 1 2 (1/2) 1 (1/4) (1/2) (1/2)).bind
      (fun m => m.price_process.get_data 1 1) = Except.ok (some 2) ∧
    (-5/12 : ℚ) * (1 + 1/4) + (2/3) * 2 ≠ 1 := by
  refine ⟨?_, ?_, ?_, ?_⟩ <;> with_unfolding_all decide

/-- C8: for every horizon `T ≥ 0`, the addressing `(t,k) ↦ t(t+1)/2 + k`
restricted to `0 ≤ k ≤ t ≤ T` is injective, lands in
`[0, (T+1)(T+2)/2)`, and hits every index of that interval. -/
theorem C8_bijection (T : Int) (hT : 0 ≤ T) :
    (∀ t k t' k' : Int, 0 ≤ k → k ≤ t → t ≤ T → 0 ≤ k' → k' ≤ t' →
      t' ≤ T → bt_index t k = bt_index t' k' → t = t' ∧ k = k') ∧
    (∀ t k : Int, 0 ≤ k → k ≤ t → t ≤ T →
      0 ≤ bt_index t k ∧ bt_index t k < (T + 1) * (T + 2) / 2) ∧
    (∀ i : Int, 0 ≤ i → i < (T + 1) * (T + 2) / 2 →
      ∃ t k : Int, 0 ≤ k ∧ k ≤ t ∧ t ≤ T ∧ bt_index t k = i) := by
  have hNcast : ((treeLen T : Nat) : Int) = (T + 1) * (T + 2) / 2 := by
    have h2 : (2 : Int) * (tri (T.toNat + 1) : Int) = (T + 1) * (T + 2) := by
      have := two_mul_tri_int (T.toNat + 1)
      have hc : ((T.toNat : Int)) = T := Int.toNat_of_nonneg hT
      push_cast at this ⊢
      rw [hc] at this
      linarith
    have hdiv : (T + 1) * (T + 2) / 2 = (tri (T.toNat + 1) : Int) := by
      rw [← h2, Int.mul_ediv_cancel_left _ (by norm_num)]
    rw [treeLen_eq T hT, hdiv]
  refine ⟨?_, ?_, ?_⟩
  · intro t k t' k' hk hkt htT hk' hkt' htT' hEq
    have ht : 0 ≤ t := le_trans hk hkt
    have ht' : 0 ≤ t' := le_trans hk' hkt'
    rw [bt_index_eq t k ht, bt_index_eq t' k' ht'] at hEq
    have hnat : tri t.toNat + k.toNat = tri t'.toNat + k'.toNat := by omega
    have := @tri_add_inj t.toNat k.toNat t'.toNat k'.toNat
      (by omega) (by omega) hnat
    omega
  · intro t k hk hkt htT
    refine ⟨bt_index_nonneg (le_trans hk hkt) hk, ?_⟩
    have := bt_index_lt_treeLen hk hkt htT
    omega
  · intro i h0 hi
    have hiN : i.toNat < tri (T.toNat + 1) := by
      rw [← treeLen_eq T hT]
      omega
    obtain ⟨t, k, htT, hkt, hidx⟩ := tri_add_surj T.toNat i.toNat hiN
    refine ⟨(t : Int), (k : Int), by positivity, by exact_mod_cast hkt, ?_, ?_⟩
    · have : t ≤ T.toNat := htT
      omega
    · rw [bt_index_eq (t : Int) (k : Int) (by positivity)]
      have htn : ((t : Int)).toNat = t := by omega
      rw [htn]
      omega

/-- Witness for C8 at `T = 1`. -/
theorem C8_bijection_witness :
    (0 : Int) ≤ 1 ∧
    ((∀ t k t' k' : Int, 0 ≤ k → k ≤ t → t ≤ 1 → 0 ≤ k' → k' ≤ t' →
      t' ≤ 1 → bt_index t k = bt_index t' k' → t = t' ∧ k = k') ∧
    (∀ t k : Int, 0 ≤ k → k ≤ t → t ≤ 1 →
      0 ≤ bt_index t k ∧ bt_index t k < (1 + 1) * (1 + 2) / 2) ∧
    (∀ i : Int, 0 ≤ i → i < (1 + 1) * (1 + 2) / 2 →
      ∃ t k : Int, 0 ≤ k ∧ k ≤ t ∧ t ≤ 1 ∧ bt_index t k = i)) :=
  ⟨by norm_num, C8_bijection 1 (by norm_num)⟩

/-- C9: out-of-triangle coordinates that stay inside the flat storage
silently alias valid nodes: for `0 ≤ t < T`, `get(t, t+1)` reads the very
slot of node `(t+1, 0)` — the flat index `t(t+1)/2 + (t+1)` equals
`(t+1)(t+2)/2 + 0` — and returns its stored value without any error. -/
theorem C9_out_of_triangle_alias (T : Int) (hT : 1 ≤ T) (bt : BinaryTree ℚ)
    (hlen : bt.data.length = treeLen T) (t : Int) (h0 : 0 ≤ t)
    (htT : t < T) :
    bt_index t (t + 1) = bt_index (t + 1) 0 ∧
    bt.get_data t (t + 1) = bt.get_data (t + 1) 0 ∧
    ∃ v : Option ℚ, bt.get_data t (t + 1) = Except.ok v := by
  have hidx : bt_index t (t + 1) = bt_index (t + 1) 0 := by
    rw [bt_index_eq t (t + 1) h0, bt_index_eq (t + 1) 0 (by omega)]
    have h1 : (t + 1).toNat = t.toNat + 1 := by omega
    rw [h1]
    have htri : tri (t.toNat + 1) = tri t.toNat + (t.toNat + 1) := rfl
    omega
  have hget : bt.get_data t (t + 1) = bt.get_data (t + 1) 0 := by
    unfold BinaryTree.get_data
    rw [hidx]
  refine ⟨hidx, hget, ?_⟩
  rw [hget, BinaryTree.get_data_ok bt hlen (le_refl 0) (by omega) (by omega)]
  exact ⟨_, rfl⟩

/-- Witness for C9: on the example model's price tree (`T = 1`),
`get(0, 1)` aliases node `(1, 0)` and returns its value, error-free. -/
theorem C9_out_of_triangle_alias_witness :
    mEx.price_process.data.length = treeLen 1 ∧
    (bt_index 0 (0 + 1) = bt_index (0 + 1) 0 ∧
    mEx.price_process.get_data 0 (0 + 1) =
      mEx.price_process.get_data (0 + 1) 0 ∧
    ∃ v : Option ℚ, mEx.price_process.get_data 0 (0 + 1) = Except.ok v) :=
  ⟨by with_unfolding_all decide,
    C9_out_of_triangle_alias 1 (by norm_num) mEx.price_process
      (by with_unfolding_all decide) 0 (le_refl 0) (by norm_num)⟩

/-- C10: the precondition `t < T` of the hedging computation is never
checked: called at `t = T` it reads successor node `(T+1, k+1)`, whose
flat index `(T+1)(T+2)/2 + k + 1` lies past the end of the storage, so
the call fails with an index error instead of returning a portfolio. -/
theorem C10_hedge_at_horizon (T : Int) (u d S R pu pd : ℚ)
    (m : BinomialModel)
    (h : BinomialModel.init T u d S R pu pd = Except.ok m)
    (hT : 0 ≤ T) (k : Int) (hk : 0 ≤ k) (phi : ℚ → ℚ) :
    m.compute_hedging_portfolio_at_node T k phi =
      Except.error PyErr.indexError := by
  obtain ⟨hT', hu, hd, hS, hR, -, -, hlen, hfill⟩ :=
    BinomialModel.init_fields h
  subst hT' hu hd hS hR
  obtain ⟨vp, hvp, hlenv, -⟩ := compute_value_process_ok m phi hfill hT
  have hidx : (treeLen m.T : Int) ≤ bt_index (m.T + 1) (k + 1) := by
    rw [bt_index_eq (m.T + 1) (k + 1) (by omega), treeLen_eq m.T hT]
    have h1 : (m.T + 1).toNat = m.T.toNat + 1 := by omega
    rw [h1]
    omega
  have hget : vp.get_data (m.T + 1) (k + 1) =
      Except.error PyErr.indexError := by
    unfold BinaryTree.get_data
    apply pyListGet_err
    right
    rw [hlenv]
    exact hidx
  rw [BinomialModel.compute_hedging_portfolio_at_node, hvp, Except.ok_bind,
    hget]
  rfl

/-- Witness for C10: on the example model (`T = 1`), requesting the hedge
at the terminal layer fails with the index error. -/
theorem C10_hedge_at_horizon_witness :
    BinomialModel.init 1 2 (1/2) 1 0 (1/2) (1/2) = Except.ok mEx ∧
    mEx.compute_hedging_portfolio_at_node 1 0 (fun s => s) =
      Except.error PyErr.indexError :=
  ⟨by with_unfolding_all decide,
    C10_hedge_at_horizon 1 2 (1/2) 1 0 (1/2) (1/2) mEx
      (by with_unfolding_all decide) (by norm_num) 0 (le_refl 0)
      (fun s => s)⟩

/-- C4 counterexample: on a fresh tree with `T = 1`, the in-storage but
out-of-triangle read `get(0, 1)` succeeds (returning the unset marker of
the aliased slot) instead of failing with an `IndexOutOfRange`, and the
in-range unwritten read `get(0, 0)` returns the unset marker instead of
failing with an `UninitializedNode`. -/
theorem C4_counterexample :
    (BinaryTree.create ℚ 1).get_data 0 1 = Except.ok none ∧
    (BinaryTree.create ℚ 1).get_data 0 1 ≠
      Except.error PyErr.indexError ∧
    (BinaryTree.create ℚ 1).get_data 0 0 = Except.ok none := by
  refine ⟨?_, ?_, ?_⟩ <;> with_unfolding_all decide

/-- C4 amended: `get(t,k)` fails (with Python's index error) exactly when
the flat index `t(t+1)/2 + k` falls outside the storage's valid index
range `[-N, N)` with `N = (T+1)(T+2)/2`; any flat index in `[0, N)`
returns the stored slot, which on a fresh tree is the unset marker
(`None`) — there is no triangle bounds check and no initialization
check. -/
theorem C4_amended_get_contract (T : Int) (bt : BinaryTree ℚ)
    (hlen : bt.data.length = treeLen T) (t k : Int) :
    (bt.get_data t k = Except.error PyErr.indexError ↔
      (bt_index t k < -(treeLen T : Int) ∨
        (treeLen T : Int) ≤ bt_index t k)) ∧
    (0 ≤ bt_index t k → bt_index t k < (treeLen T : Int) →
      bt.get_data t k =
        Except.ok (bt.data.getD (bt_index t k).toNat none)) ∧
    (∀ j : Nat, (BinaryTree.create ℚ T).data.getD j none = none) := by
  have hlenI : (bt.data.length : Int) = (treeLen T : Int) := by
    rw [hlen]
  refine ⟨⟨?_, ?_⟩, ?_, ?_⟩
  · intro herr
    by_contra hnot
    push_neg at hnot
    obtain ⟨hlow, hhigh⟩ := hnot
    by_cases hpos : 0 ≤ bt_index t k
    · have hlt : (bt_index t k).toNat < bt.data.length := by omega
      rw [BinaryTree.get_data, pyListGet_ok hpos hlt] at herr
      cases herr
    · push_neg at hpos
      obtain ⟨j, hj, -, hokf⟩ := @pyListGet_neg _ bt.data
        (bt_index t k) (by omega) hpos
      rw [BinaryTree.get_data, hokf hj] at herr
      cases herr
  · intro hout
    rw [BinaryTree.get_data]
    apply pyListGet_err
    omega
  · intro h0 hN
    have hlt : (bt_index t k).toNat < bt.data.length := by omega
    rw [BinaryTree.get_data, pyListGet_ok h0 hlt]
    congr 1
    rw [List.getD_eq_getElem?_getD, List.getElem?_eq_getElem hlt]
    simp [List.get_eq_getElem]
  · intro j
    exact BinaryTree.create_getD T j

/-- Witness for C4 (amended) on the fresh tree with `T = 1` at the
out-of-triangle node `(0, 1)`. -/
theorem C4_amended_get_contract_witness :
    (BinaryTree.create ℚ 1).data.length = treeLen 1 ∧
    (((BinaryTree.create ℚ 1).get_data 0 1 =
        Except.error PyErr.indexError ↔
      (bt_index 0 1 < -(treeLen 1 : Int) ∨
        (treeLen 1 : Int) ≤ bt_index 0 1)) ∧
    (0 ≤ bt_index 0 1 → bt_index 0 1 < (treeLen 1 : Int) →
      (BinaryTree.create ℚ 1).get_data 0 1 =
        Except.ok ((BinaryTree.create ℚ 1).data.getD
          (bt_index 0 1).toNat none)) ∧
    (∀ j : Nat, (BinaryTree.create ℚ 1).data.getD j none = none)) :=
  ⟨by with_unfolding_all decide,
    C4_amended_get_contract 1 (BinaryTree.create ℚ 1)
      (by with_unfolding_all decide) 0 1⟩

/-- C5 counterexample: tree creation with `T = -1 < 0` does not fail at
all — the whole constructor succeeds, allocating `int((T+1)(T+2)/2) = 0`
slots — contradicting the claimed `ConfigurationError` on `T < 0`. -/
theorem C5_counterexample :
    BinomialModel.init (-1) 2 (1/2) 1 0 (1/2) (1/2) =
      Except.ok ⟨-1, 2, 1/2, 1, 0, ⟨[]⟩⟩ := by
  with_unfolding_all decide

/-- C5 amended: tree creation never fails — it allocates
`int((T+1)(T+2)/2)` slots for every integer `T` (zero slots when
`T ∈ {-1, -2}`) — and engine construction fails (assertion error)
exactly when `pu + pd ≠ 1` or `u ≤ d`; when `pu + pd = 1` and `u > d`
it succeeds for every `T`. -/
theorem C5_amended_construction (T : Int) (u d S R pu pd : ℚ) :
    (BinaryTree.create ℚ T).data.length = treeLen T ∧
    ((∃ m, BinomialModel.init T u d S R pu pd = Except.ok m) ↔
      (pu + pd = 1 ∧ d < u)) ∧
    (BinomialModel.init T u d S R pu pd =
        Except.error PyErr.assertionError ↔
      ¬(pu + pd = 1 ∧ d < u)) := by
  refine ⟨BinaryTree.create_length ℚ T,
    BinomialModel.init_ok_iff T u d S R pu pd, ?_, ?_⟩
  · intro herr
    intro hgood
    obtain ⟨m, hm⟩ := (BinomialModel.init_ok_iff T u d S R pu pd).2 hgood
    rw [hm] at herr
    cases herr
  · intro hbad
    rw [BinomialModel.init]
    by_cases h1 : pu + pd = 1
    · rw [if_pos h1]
      by_cases h2 : d < u
      · exact absurd ⟨h1, h2⟩ hbad
      · rw [if_neg h2]
    · rw [if_neg h1]
